import Mathlib

/-!
Verification of the helix-assist completion pipeline.

Strings are modelled as lists of characters (`Str`); Go's byte indexing
coincides with character indexing for the ASCII text the heuristics target.
Every definition below is a direct translation of the corresponding Go
function; where the Go code mutates local variables, the translation uses
sequential `let` bindings in the same order.
-/

set_option maxRecDepth 10000

abbrev Str := List Char

/-- Convert a literal to the character-list representation. -/
def str (s : String) : Str := s.toList

/-- Character set that `strings.TrimSpace` removes (ASCII fragment of
`unicode.IsSpace`). -/
def spaceCutset : List Char := [' ', '\t', '\n', Char.ofNat 11, Char.ofNat 12, '\r']

def isSpaceB (c : Char) : Bool := spaceCutset.contains c

/-- Go `strings.TrimLeft(s, cutset)`. -/
def trimLeftC (s : Str) (cut : List Char) : Str := s.dropWhile (fun c => cut.contains c)

/-- Go `strings.TrimRight(s, cutset)`. -/
def trimRightC (s : Str) (cut : List Char) : Str :=
  (s.reverse.dropWhile (fun c => cut.contains c)).reverse

/-- Go `strings.Trim(s, cutset)`. -/
def trimCut (s : Str) (cut : List Char) : Str := trimRightC (trimLeftC s cut) cut

/-- Go `strings.TrimSpace`. -/
def trimSpace (s : Str) : Str := trimRightC (trimLeftC s spaceCutset) spaceCutset

/-- Go `strings.HasPrefix(s, p)`. -/
def startsWith (s p : Str) : Bool := p.isPrefixOf s

/-- Go `strings.HasSuffix(s, p)`. -/
def endsWith (s p : Str) : Bool := p.isSuffixOf s

/-- Go `strings.ToLower` on the ASCII range. -/
def toLowerStr (s : Str) : Str := s.map Char.toLower

/-- Go `strings.Split(s, "\n")`. -/
def splitLines : Str → List Str
  | [] => [[]]
  | c :: rest =>
    match splitLines rest with
    | [] => [[]]
    | l :: ls => if c = '\n' then [] :: l :: ls else (c :: l) :: ls

/-- Go `strings.Join(lines, "\n")`. -/
def joinLines : List Str → Str
  | [] => []
  | [l] => l
  | l :: ls => l ++ '\n' :: joinLines ls

/-- Go `strings.Index(s, sub)`: position of the first occurrence, if any. -/
def indexOfSub (s sub : Str) : Option Nat :=
  match s with
  | [] => if sub.isPrefixOf ([] : Str) then some 0 else none
  | c :: t => if sub.isPrefixOf (c :: t) then some 0 else (indexOfSub t sub).map (· + 1)

/-- Go `strings.Contains(s, sub)`. -/
def containsSub (s sub : Str) : Bool := (indexOfSub s sub).isSome

/-- Helper for `fields`, with fuel for termination; one word is consumed per
step, so `s.length + 1` units of fuel always suffice. -/
def fieldsAux : Nat → Str → List Str
  | 0, _ => []
  | fuel + 1, s =>
    let s1 := s.dropWhile isSpaceB
    match s1 with
    | [] => []
    | _ :: _ =>
      (s1.takeWhile (fun c => !isSpaceB c)) :: fieldsAux fuel (s1.dropWhile (fun c => !isSpaceB c))

/-- Go `strings.Fields`. -/
def fields (s : Str) : List Str := fieldsAux (s.length + 1) s

/-- The struct `util.ContentParts` from the repository. -/
structure ContentParts where
  ContentBefore : Str
  ContentAfter : Str
  LastCharacter : Str
  LastLine : Str
  ContentImmediatelyAfter : Str
deriving DecidableEq

/-- The function `util.GetContent`, translated statement by statement.  The Go
source indexes `lines[line][column:]` without re-checking `column >= 0`, so a
negative column panics there; this embedding is only used at non-negative
columns, where the two agree. -/
def getContent (contents : Str) (line column : Int) : ContentParts :=
  let lines := splitLines contents
  let line1 : Int := if line < 0 then 0 else line
  let line2 : Int := if line1 ≥ (lines.length : Int) then (lines.length : Int) - 1 else line1
  let L : Nat := line2.toNat
  let beforeLines0 := lines.take (L + 1)
  let curLine := beforeLines0.getD L []
  let beforeLines :=
    if 0 ≤ column ∧ column < (curLine.length : Int) then
      beforeLines0.set L (curLine.take column.toNat)
    else beforeLines0
  let lastLine := beforeLines.getD (beforeLines.length - 1) []
  let contentBefore := joinLines beforeLines
  let contentAfter :=
    if line2 + 1 < (lines.length : Int) then joinLines (lines.drop (L + 1)) else []
  let lastCharacter :=
    if h : contentBefore = [] then [] else [contentBefore.getLast h]
  let origLine := lines.getD L []
  let contentImmediatelyAfter :=
    if line2 < (lines.length : Int) ∧ column < (origLine.length : Int) then
      origLine.drop column.toNat
    else []
  ⟨contentBefore, contentAfter, lastCharacter, lastLine, contentImmediatelyAfter⟩

/-- The method `CompletionHandler.shouldSkip`. -/
def shouldSkip (content : ContentParts) : Bool :=
  if content.LastCharacter = ['.'] then true
  else
    let lastLine := trimSpace content.LastLine
    if startsWith lastLine (str "//") || startsWith lastLine (str "#") then true
    else
      let trimmedLine := trimSpace content.LastLine
      if trimmedLine = [] then true
      else if trimmedLine.length < 2 then true
      else false

/-- LSP `Position` (zero-based line and character, both unsigned). -/
structure Position where
  line : Nat
  character : Nat
deriving DecidableEq

/-- LSP `Range`; the Go field `End` is spelled `endPos` because `end` is a
Lean keyword. -/
structure Range where
  startPos : Position
  endPos : Position
deriving DecidableEq

/-- LSP `TextEdit`. -/
structure TextEdit where
  range : Range
  newText : Str
deriving DecidableEq

/-- LSP `CompletionItem`, the fields `buildCompletionItem` populates. -/
structure CompletionItem where
  label : Str
  kind : Nat
  detail : Str
  insertTextFormat : Nat
  textEdit : TextEdit
  sortText : Str
  preselect : Bool
  additionalTextEdits : List TextEdit
deriving DecidableEq

/-- The function `findOverlapSuffix`'s countdown loop: the largest `i ≤ fuel`
such that the last `i` characters of `h` equal the first `i` of `s`, else 0. -/
def overlapLoop (h s : Str) : Nat → Nat
  | 0 => 0
  | i + 1 =>
    if h.drop (h.length - (i + 1)) = s.take (i + 1) then i + 1
    else overlapLoop h s i

/-- The function `findOverlapSuffix` from completions.go. -/
def findOverlapSuffix (hint suffix : Str) : Nat :=
  if suffix = [] then 0
  else
    let h := trimRightC hint [' ', '\t']
    overlapLoop h suffix (min h.length suffix.length)

/-- The trimming and echoed-context removal at the top of
`buildCompletionItem`.  Note the Go code slices the untrimmed hint by the
length of the trimmed last-line text (`hint[len(lastLineTrimmed):]`), which
this translation reproduces. -/
def processedHint (hint0 : Str) (content : ContentParts) : Str :=
  let hint1 := trimLeftC hint0 ['\n']
  let hint2 := trimRightC hint1 [' ', '\t', '\n']
  let lastLineTrimmed := trimSpace content.LastLine
  if lastLineTrimmed ≠ [] ∧ startsWith (trimSpace hint2) lastLineTrimmed then
    trimSpace (hint2.drop lastLineTrimmed.length)
  else hint2

/-- The method `CompletionHandler.buildCompletionItem`. -/
def buildCompletionItem (hint0 : Str) (content : ContentParts) (position : Position)
    (index : Nat) : CompletionItem :=
  let _ := index
  let hint := processedHint hint0 content
  let lines := splitLines hint
  let endLine := position.line + (lines.length - 1)
  let endChar0 := (lines.getD (lines.length - 1) []).length
  let endChar := if endLine = position.line then endChar0 + position.character else endChar0
  let label0 := str "AI: " ++ lines.getD 0 []
  let label := if label0.length > 40 then label0.take 40 ++ str "..." else label0
  let overlapLen := findOverlapSuffix hint content.ContentImmediatelyAfter
  let additionalEdits : List TextEdit :=
    if overlapLen > 0 then
      [⟨⟨⟨endLine, endChar⟩, ⟨endLine, endChar + overlapLen⟩⟩, []⟩]
    else []
  { label := label
    kind := 1
    detail := hint
    insertTextFormat := 1
    textEdit := ⟨⟨position, position⟩, hint⟩
    sortText := []
    preselect := true
    additionalTextEdits := additionalEdits }

/-- Position immediately after inserting text `s` at position `p` (the end
position of the inserted span, in post-insertion coordinates). -/
def advancePos (p : Position) (s : Str) : Position :=
  let ls := splitLines s
  if ls.length = 1 then ⟨p.line, p.character + s.length⟩
  else ⟨p.line + (ls.length - 1), (ls.getD (ls.length - 1) []).length⟩

def isLowerAZ (c : Char) : Bool := 'a' ≤ c && c ≤ 'z'

/-- One attempt to match the Go pattern "(?s)```[a-z]*\n?(.*?)```" at the very
start of `t`, returning the lazy group.  Greedy `[a-z]*` and `\n?` need no
backtracking here: the closing delimiter "```" starts with a backtick, which
is neither a lowercase letter nor a newline, so shrinking either greedy
piece can never expose an occurrence of the closing delimiter that the
greedy parse missed. -/
def fenceRest (t : Str) : Str :=
  let r1 := (t.drop 3).dropWhile isLowerAZ
  if r1.headD ' ' = '\n' then r1.drop 1 else r1

def tryFenceAt (t : Str) : Option Str :=
  if (str "```").isPrefixOf t then
    match indexOfSub (fenceRest t) (str "```") with
    | some j => some ((fenceRest t).take j)
    | none => none
  else none

/-- Leftmost match of the fenced-code-block pattern: the group of the first
position at which the whole pattern matches (Go regexp leftmost-first
semantics of `codeBlockRe.FindStringSubmatch`). -/
def fencedGroup : Str → Option Str
  | [] => none
  | c :: t =>
    match tryFenceAt (c :: t) with
    | some g => some g
    | none => fencedGroup t

/-- Step 1 of `cleanCompletion`: replace the response with the fenced block's
content when the code-fence regex matches. -/
def stripFence (r : Str) : Str :=
  match fencedGroup r with
  | some g => trimSpace g
  | none => r

/-- Model-control tokens truncated at their first occurrence (same order as
the Go loop). -/
def ctrlTokens : List Str := [str "<|", str "<FILL>", str "<CURSOR>", str "</s>", str "<s>"]

def stripTokenStep (r token : Str) : Str :=
  match indexOfSub r token with
  | some idx => r.take idx
  | none => r

/-- Chat boilerplate lead-ins, in the Go slice's order.  The apostrophe is
spelled via its code point. -/
def phrasesList : List Str :=
  [str "here" ++ Char.ofNat 39 :: str "s the completion:",
   str "here is the completion:",
   str "here is the completed code:",
   str "completion:",
   str "the completion is:",
   str "output:",
   str "answer:",
   str "code:"]

/-- One iteration of the boilerplate-stripping loop.  Note the Go code drops
`len(prefix)` characters from the untrimmed response while the prefix test
ran on the trimmed, lowercased response; the translation reproduces that. -/
def stripPhraseStep (r p : Str) : Str :=
  if startsWith (toLowerStr (trimSpace r)) p then trimSpace (r.drop p.length) else r

/-- The echoed current-line-prefix removal step of `cleanCompletion`. -/
def stripLinePre (before r : Str) : Str :=
  let beforeLines := splitLines before
  let linePre :=
    if beforeLines.length > 0 then trimSpace (beforeLines.getD (beforeLines.length - 1) [])
    else []
  if linePre ≠ [] then
    let rt := trimSpace r
    if startsWith rt linePre then trimLeftC (rt.drop linePre.length) [' '] else r
  else r

/-- Tokens the overlap-truncation heuristic skips as too generic. -/
def skipTokensList : List Str :=
  [[Char.ofNat 123], [Char.ofNat 125], ['('], [')'], ['['], [']'], str "//", str "/*"]

def isBoundaryChar (c : Char) : Bool :=
  c = ' ' || c = '\t' || c = '\n' || c = '[' || c = '(' || c = Char.ofNat 123 ||
  c = '=' || c = ':'

/-- The method `truncateAtAfterOverlap`. -/
def truncateAtAfterOverlap (r after : Str) : Str :=
  if after = [] then r
  else
    let afterTrimmed := trimSpace after
    if afterTrimmed = [] then r
    else
      let firstAfterLine := (splitLines afterTrimmed).headD []
      let firstAfterToken := trimSpace firstAfterLine
      if firstAfterToken.length ≤ 1 then r
      else
        match fields firstAfterToken with
        | [] => r
        | w0 :: wrest =>
          if skipTokensList.contains w0 ∧ wrest = [] then r
          else
            let firstWord :=
              if skipTokensList.contains w0 then wrest.headD w0 else w0
            if firstWord.length ≥ 2 then
              match indexOfSub r firstWord with
              | some idx =>
                if idx > 0 then
                  if isBoundaryChar (r.getD (idx - 1) ' ') then
                    trimRightC (r.take idx) [' ', '\t']
                  else r
                else r
              | none => r
            else r

/-- Trailing lines of the response that duplicate the first lines of the
after text, with substance beyond bare braces: the condition the loop body of
`removeAfterDuplicates` computes for a given count `i`. -/
def trailingDup (respLines afterLines : List Str) (i : Nat) : Bool :=
  decide (i ≤ afterLines.length) &&
  ((respLines.drop (respLines.length - i)).zip (afterLines.take i)).all
    (fun pr => trimSpace pr.1 == trimSpace pr.2) &&
  (respLines.drop (respLines.length - i)).any
    (fun l => !(trimSpace l == []) && !(trimSpace l == [Char.ofNat 125]) &&
              !(trimSpace l == [Char.ofNat 123]))

/-- The countdown loop of `removeAfterDuplicates`, returning how many
trailing lines are removed (none when no candidate count qualifies). -/
def radLoop (respLines afterLines : List Str) : Nat → Option Nat
  | 0 => none
  | i0 + 1 =>
    let i := i0 + 1
    if afterLines.length < i then radLoop respLines afterLines i0
    else if trailingDup respLines afterLines i then
      if respLines.length - i < 1 then radLoop respLines afterLines i0
      else some i
    else radLoop respLines afterLines i0

/-- The method `removeAfterDuplicates`. -/
def removeAfterDuplicates (r after : Str) : Str :=
  let respLines := splitLines r
  let afterLines := splitLines after
  match radLoop respLines afterLines (min 3 respLines.length) with
  | some i => joinLines (respLines.take (respLines.length - i))
  | none => joinLines respLines

/-- Scan of `removeAfterFunctionDuplicates` over candidate line indices.  The
Go inner loop keeps scanning when a match would remove more than 70% of the
response; every match at the same index produces the same candidate result,
so that continue is equivalent to moving to the next index. -/
def rafdLoop (respLines afterLines : List Str) (r : Str) : List Nat → Option Str
  | [] => none
  | i :: is =>
    let line := trimSpace (respLines.getD i [])
    if (startsWith line (str "func ") || startsWith line (str "func(")) &&
       (afterLines.take 10).any (fun al => trimSpace al == line) then
      let result := trimRightC (joinLines (respLines.take i)) [' ', '\t', '\n']
      if result.length > r.length / 3 then some result
      else rafdLoop respLines afterLines r is
    else rafdLoop respLines afterLines r is

/-- The method `removeAfterFunctionDuplicates`. -/
def removeAfterFunctionDuplicates (r after : Str) : Str :=
  if r = [] ∨ after = [] then r
  else
    let respLines := splitLines r
    let afterLines := splitLines after
    if respLines.length < 15 then r
    else
      let startCheckFrom := respLines.length / 2
      match rafdLoop respLines afterLines r
          (List.range' startCheckFrom (respLines.length - startCheckFrom)) with
      | some result => result
      | none => r

/-- Block-starting keywords checked by `isBlockContext`; braces are spelled
via their code point. -/
def blockStarters : List Str :=
  [str "for ", str "for" ++ [Char.ofNat 123], str "if ", str "if(", str "else ",
   str "else" ++ [Char.ofNat 123], str "switch ", str "select ", str "func ", str "func("]

/-- The method `isBlockContext`. -/
def isBlockContext (before : Str) : Bool :=
  let lines := splitLines before
  if lines.length = 0 then false
  else
    let lastLine := trimSpace (lines.getD (lines.length - 1) [])
    if blockStarters.any (fun st => startsWith lastLine st || containsSub lastLine st) then true
    else endsWith lastLine [Char.ofNat 123]

/-- The aggressive truncation `cleanCompletion` applies outside block
contexts. -/
def nonBlockTrunc (before r : Str) : Str :=
  if !isBlockContext before && containsSub r ['\n'] then
    let lines := splitLines r
    let beforeTrimmed := trimSpace before
    if endsWith beforeTrimmed (str "var") || containsSub beforeTrimmed (str "var ") ||
       containsSub beforeTrimmed (str ":=") then
      if (trimSpace (lines.headD [])).length ≥ 2 then lines.headD [] else r
    else if lines.length > 10 then
      if (trimSpace (lines.headD [])).length ≥ 2 &&
         !endsWith (trimSpace (lines.headD [])) [Char.ofNat 123] then lines.headD []
      else r
    else r
  else r

/-- The three after-overlap cleanups of `cleanCompletion`, applied only when
the after text is non-empty, in the Go source's order. -/
def cleanAfterSteps (after r5 : Str) : Str :=
  if after ≠ [] then
    removeAfterFunctionDuplicates
      (removeAfterDuplicates (truncateAtAfterOverlap r5 after) after) after
  else r5

/-- The closing trims of `cleanCompletion`: leading newlines, trailing
whitespace, then all leading horizontal whitespace. -/
def cleanFinalTrim (r7 : Str) : Str :=
  trimLeftC (trimRightC (trimLeftC r7 ['\n']) [' ', '\t', '\n']) [' ', '\t']

/-- The heuristic pipeline of `cleanCompletion` between the emptiness guards:
fence extraction, backtick trim, control-token truncation, boilerplate
stripping, echoed-line-prefix removal, after-overlap cleanups, non-block
truncation. -/
def cleanCore (response0 before after : Str) : Str :=
  nonBlockTrunc before
    (cleanAfterSteps after
      (stripLinePre before
        (phrasesList.foldl stripPhraseStep
          (ctrlTokens.foldl stripTokenStep
            (trimCut (stripFence response0) [Char.ofNat 96])))))

/-- The method `OllamaProvider.cleanCompletion`, composed of the step
functions above in the Go source's order (logging omitted). -/
def cleanCompletion (response0 before after : Str) : Str :=
  if response0 = [] then []
  else
    let r8 := cleanFinalTrim (cleanCore response0 before after)
    if (trimSpace r8).length < 2 then [] else r8

/-- Body of one parallel generation goroutine in `OllamaProvider.Completion`:
`raw` is the outcome of `doRequest` plus JSON decoding (`none` models any
transport, decoding or cancellation failure).  The goroutine reports an
error for an empty raw response and for a response that cleans to nothing. -/
def attemptCompletion (before after : Str) (raw : Option Str) : Option Str :=
  match raw with
  | none => none
  | some resp =>
    if resp = [] then none
    else
      let c := cleanCompletion resp before after
      if c = [] then none else some c

/-- The result-channel collection loop of `OllamaProvider.Completion`:
successful, non-empty, not-yet-seen completions are appended in arrival
order (`seen[completion]` is equivalent to membership in the accumulator). -/
def collectLoop (acc : List Str) : List (Option Str) → List Str
  | [] => acc
  | r :: rs =>
    match r with
    | some c =>
      if c ≠ [] ∧ c ∉ acc then collectLoop (acc ++ [c]) rs else collectLoop acc rs
    | none => collectLoop acc rs

/-- The method `OllamaProvider.Completion` after its goroutines finish:
`arrivals` is the channel's arrival-ordered list of per-attempt raw outcomes
(one per launched goroutine; the order is an arbitrary interleaving).  The
method returns a nil error on every path, so the `Except` is always `.ok`;
an entirely failed round returns `.ok []` (Go's `nil, nil`). -/
def ollamaCompletion (before after : Str) (arrivals : List (Option Str)) :
    Except String (List Str) :=
  let completions := collectLoop [] (arrivals.map (attemptCompletion before after))
  if completions = [] then .ok [] else .ok completions

/-- A scheduled, not-yet-fired debounce timer: the values `scheduleCompletion`
captures for the closure passed to `time.AfterFunc`. -/
structure Sched where
  msgID : Nat
  reqID : Nat
  version : Nat
  content : ContentParts
deriving DecidableEq

/-- An `executeCompletion` invocation in progress.  `pc` records how far it
has run: 0 = before the request-identity check, 1 = before the buffer
re-validation, 2 = before the context re-check, 3 = about to call the
generation backend (the call, filtering and send are one step, since the Go
code performs no further shared-state reads after the backend returns). -/
structure Exec where
  msgID : Nat
  reqID : Nat
  version : Nat
  content : ContentParts
  pc : Nat
deriving DecidableEq

/-- A protocol response sent by the handler for a given message. -/
inductive Response
  | empty (msgID : Nat)
  | full (msgID : Nat) (hints : List Str)
deriving DecidableEq

def Response.msgID : Response → Nat
  | .empty m => m
  | .full m _ => m

def Response.isEmptyResp : Response → Bool
  | .empty _ => true
  | .full _ _ => false

/-- The `CompletionHandler`'s mutable state plus the observable trace:
`responses` is the list of messages passed to `svc.Send` (via
`sendEmptyCompletion` or the final non-empty send) and `backendCalls` counts
invocations of `registry.Completion`.  `cancelled` holds the request ids
whose contexts have been cancelled; `cancelCurrent` is the id whose cancel
function the handler currently retains. -/
structure MState where
  requestID : Nat
  cancelCurrent : Option Nat
  cancelled : List Nat
  pending : Option Sched
  lastContent : Str
  lastTriggerAt : Option Nat
  inflight : List Exec
  responses : List Response
  backendCalls : Nat
deriving DecidableEq

def initState : MState :=
  { requestID := 0, cancelCurrent := none, cancelled := [], pending := none,
    lastContent := [], lastTriggerAt := none, inflight := [], responses := [],
    backendCalls := 0 }

/-- The environment of one incoming completion trigger: the message id, the
outcomes of JSON parsing and the buffer lookup, the buffer's text and
version, the cursor position, and the wall-clock time (milliseconds) of the
trigger. -/
structure TrigEnv where
  msgID : Nat
  parseOk : Bool
  bufFound : Bool
  text : Str
  version : Nat
  line : Nat
  column : Nat
  now : Nat
deriving DecidableEq

/-- Per-step environment of an in-flight `executeCompletion`: whether the
step panics (caught by the deferred recover), the buffer lookup at the
re-validation step, and the generation backend's outcome (`none` is any
error, including cancellation and timeout). -/
structure ExecEnv where
  panics : Bool
  bufFound : Bool
  bufVersion : Nat
  backend : Option (List Str)
deriving DecidableEq

/-- `sendEmptyCompletion`. -/
def sendEmpty (s : MState) (m : Nat) : MState :=
  { s with responses := s.responses ++ [Response.empty m] }

/-- The duplicate-suppression time test `time.Since(h.lastTrigger) < 500ms`;
`none` models the zero time value, for which the elapsed time is huge. -/
def dupWindow (lastAt : Option Nat) (now : Nat) : Bool :=
  match lastAt with
  | some t => now - t < 500
  | none => false

/-- The registered completion-event handler followed by
`scheduleCompletion`, executed atomically (the schedule part holds `h.mu`;
the earlier checks touch no shared handler state).  Branch order follows the
Go source: parse failure, missing buffer, skip filter, then under the lock
cancel-prior / timer-stop-and-flush / duplicate suppression / scheduling.
In this linearized model a pending timer has by definition not fired yet
(firing is the separate `fire` event), so `timer.Stop()` succeeds exactly
when `pending` is present. -/
def triggerStep (s : MState) (e : TrigEnv) : MState :=
  if ¬e.parseOk then sendEmpty s e.msgID
  else if ¬e.bufFound then sendEmpty s e.msgID
  else
    let content := getContent e.text ((e.line : Int)) ((e.column : Int))
    if shouldSkip content then sendEmpty s e.msgID
    else
      let s1 :=
        match s.cancelCurrent with
        | some r => { s with cancelled := s.cancelled ++ [r], cancelCurrent := none }
        | none => s
      let s2 :=
        match s1.pending with
        | some sch =>
          { s1 with pending := none,
                    responses := s1.responses ++ [Response.empty sch.msgID] }
        | none => s1
      let key := content.ContentBefore
      if s2.lastContent = key ∧ dupWindow s2.lastTriggerAt e.now then
        { s2 with responses := s2.responses ++ [Response.empty e.msgID] }
      else
        let rid := s2.requestID + 1
        { s2 with requestID := rid, lastContent := key, lastTriggerAt := some e.now,
                  cancelCurrent := some rid,
                  pending := some ⟨e.msgID, rid, e.version, content⟩ }

/-- The debounce timer firing: `executeCompletion` starts (at `pc = 0`) for
the scheduled request.  No-op when no timer is pending. -/
def fireStep (s : MState) : MState :=
  match s.pending with
  | some sch =>
    { s with pending := none,
             inflight := s.inflight ++ [⟨sch.msgID, sch.reqID, sch.version, sch.content, 0⟩] }
  | none => s

/-- Finish the head in-flight execution with response `r`. -/
def finishExec (s : MState) (rest : List Exec) (r : Response) : MState :=
  { s with inflight := rest, responses := s.responses ++ [r] }

/-- One step of the head in-flight `executeCompletion`, following the Go
source: deferred recover (any panic yields an empty response), the stale
request-identity check, the buffer re-validation, the context re-check, then
the backend call, the valid-hint filter and the single send. -/
def execHeadStep (s : MState) (env : ExecEnv) : MState :=
  match s.inflight with
  | [] => s
  | ex :: rest =>
    if env.panics then finishExec s rest (.empty ex.msgID)
    else if ex.pc = 0 then
      if s.requestID ≠ ex.reqID then finishExec s rest (.empty ex.msgID)
      else { s with inflight := { ex with pc := 1 } :: rest }
    else if ex.pc = 1 then
      if ¬env.bufFound ∨ ex.version < env.bufVersion then
        finishExec s rest (.empty ex.msgID)
      else { s with inflight := { ex with pc := 2 } :: rest }
    else if ex.pc = 2 then
      if ex.reqID ∈ s.cancelled then finishExec s rest (.empty ex.msgID)
      else { s with inflight := { ex with pc := 3 } :: rest }
    else
      let s' := { s with backendCalls := s.backendCalls + 1 }
      match env.backend with
      | none => finishExec s' rest (.empty ex.msgID)
      | some hints =>
        let validHints :=
          hints.filter (fun h => trimSpace h ≠ [] ∧ (trimSpace h).length ≥ 2)
        if validHints = [] then finishExec s' rest (.empty ex.msgID)
        else finishExec s' rest (.full ex.msgID validHints)

/-- Scheduler rotation: moves the head in-flight execution to the back, so
an arbitrary in-flight execution can be stepped next.  Together with
`execHeadStep` this expresses every interleaving of concurrent
`executeCompletion` goroutines. -/
def rotStep (s : MState) : MState :=
  match s.inflight with
  | [] => s
  | ex :: rest => { s with inflight := rest ++ [ex] }

/-- Events of the handler's concurrent execution, linearized. -/
inductive Ev
  | trigger (e : TrigEnv)
  | fire
  | exec (env : ExecEnv)
  | rot
deriving DecidableEq

def mstep (s : MState) : Ev → MState
  | .trigger e => triggerStep s e
  | .fire => fireStep s
  | .exec env => execHeadStep s env
  | .rot => rotStep s

def runEvents (evs : List Ev) : MState := evs.foldl mstep initState

/-- Number of responses sent so far for message `m`. -/
def respCount (s : MState) (m : Nat) : Nat :=
  (s.responses.filter (fun r => r.msgID = m)).length

/-- Whether message `m` is owed a response by a pending timer. -/
def pendCount (s : MState) (m : Nat) : Nat :=
  match s.pending with
  | some sch => if sch.msgID = m then 1 else 0
  | none => 0

/-- Number of in-flight executions that will respond to message `m`. -/
def infCount (s : MState) (m : Nat) : Nat :=
  (s.inflight.filter (fun ex => ex.msgID = m)).length

/-- Number of trigger events for message `m` in an event list. -/
def trigCount (evs : List Ev) (m : Nat) : Nat :=
  (evs.filter (fun ev => match ev with | .trigger e => e.msgID = m | _ => false)).length

/-- Whether a trigger's environment lets it reach `scheduleCompletion`
(parse succeeded, buffer found, skip filter passed); this is independent of
the handler state. -/
def reachesScheduling (e : TrigEnv) : Bool :=
  e.parseOk && e.bufFound &&
  !shouldSkip (getContent e.text ((e.line : Int)) ((e.column : Int)))

/-- Message ids currently owed a response (pending timer or in-flight
execution). -/
def outstandingMsgs (s : MState) : List Nat :=
  (match s.pending with | some sch => [sch.msgID] | none => []) ++
  s.inflight.map (fun ex => ex.msgID)

/-- Messages that were outstanding at the moment a later trigger reached
scheduling, accumulated along a run from state `s`. -/
def supersededScan : List Ev → MState → List Nat
  | [], _ => []
  | ev :: rest, s =>
    (match ev with
     | .trigger e => if reachesScheduling e then outstandingMsgs s else []
     | _ => []) ++ supersededScan rest (mstep s ev)

def supersededMsgs (evs : List Ev) : List Nat := supersededScan evs initState

/-- Claim C2 as stated, for one handler history: every request superseded
while pending (in debounce or in flight) resolves to an empty result. -/
def claimC2Holds (evs : List Ev) : Bool :=
  (supersededMsgs evs).all fun a =>
    (runEvents evs).responses.all fun r => !(r.msgID == a) || r.isEmptyResp

/-- Responses sent plus responses still owed (pending timer or in-flight
execution) for message `m`. -/
def ledger (s : MState) (m : Nat) : Nat :=
  respCount s m + pendCount s m + infCount s m

/-- Per-event contribution to the trigger count of message `m`. -/
def evTrig (ev : Ev) (m : Nat) : Nat :=
  match ev with
  | .trigger e => if e.msgID = m then 1 else 0
  | _ => 0

/-- Strict document order on positions. -/
def posLt (p q : Position) : Prop :=
  p.line < q.line ∨ (p.line = q.line ∧ p.character < q.character)

/-- A handler history in which trigger B (message 2) arrives while the
execution for trigger A (message 1) has already passed its identity and
context checks but its backend call has not yet returned; the call then
succeeds.  This is a real interleaving of the Go code: the cancellation of
A's context is cooperative and the completed HTTP response is delivered
anyway. -/
def trC2 : List Ev :=
  [Ev.trigger ⟨1, true, true, str "ab", 1, 0, 2, 1000⟩,
   Ev.fire,
   Ev.exec ⟨false, true, 1, none⟩,
   Ev.exec ⟨false, true, 1, none⟩,
   Ev.exec ⟨false, true, 1, none⟩,
   Ev.trigger ⟨2, true, true, str "cd", 1, 0, 2, 1100⟩,
   Ev.exec ⟨false, true, 1, some [str "hint"]⟩]

theorem trimLeftC_suf (s : Str) (cut : List Char) : trimLeftC s cut <:+ s :=
  List.dropWhile_suffix _

theorem trimRightC_pre (s : Str) (cut : List Char) : trimRightC s cut <+: s := by
  have h : (trimRightC s cut).reverse <:+ s.reverse := by
    simpa [trimRightC] using
      List.dropWhile_suffix (l := s.reverse) (fun c => cut.contains c)
  exact List.reverse_suffix.mp h

theorem trimSpace_inf (s : Str) : trimSpace s <:+: s :=
  (trimRightC_pre (trimLeftC s spaceCutset) spaceCutset).isInfix.trans
    (trimLeftC_suf s spaceCutset).isInfix

theorem trimCut_inf (s : Str) (cut : List Char) : trimCut s cut <:+: s :=
  (trimRightC_pre (trimLeftC s cut) cut).isInfix.trans (trimLeftC_suf s cut).isInfix

theorem foldl_step_inf {f : Str → Str → Str} (hf : ∀ a x, f a x <:+: a)
    (l : List Str) (a : Str) : l.foldl f a <:+: a := by
  induction l generalizing a with
  | nil => exact List.infix_rfl
  | cons x xs ih => exact (ih (f a x)).trans (hf a x)

theorem splitLines_ne_nil (s : Str) : splitLines s ≠ [] := by
  cases s with
  | nil => simp [splitLines]
  | cons c t =>
    simp only [splitLines]
    cases h : splitLines t with
    | nil => simp
    | cons l ls => by_cases hc : c = '\n' <;> simp [hc]

theorem splitLines_length_pos (s : Str) : 0 < (splitLines s).length :=
  List.length_pos.mpr (splitLines_ne_nil s)

theorem joinLines_cons (l : Str) (ls : List Str) (h : ls ≠ []) :
    joinLines (l :: ls) = l ++ '\n' :: joinLines ls := by
  cases ls with
  | nil => exact absurd rfl h
  | cons l2 ls2 => rfl

theorem joinLines_splitLines (s : Str) : joinLines (splitLines s) = s := by
  induction s with
  | nil => rfl
  | cons c t ih =>
    cases h : splitLines t with
    | nil => exact absurd h (splitLines_ne_nil t)
    | cons l ls =>
      rw [h] at ih
      simp only [splitLines, h]
      by_cases hc : c = '\n'
      · simp only [hc, if_true, ite_true, if_pos]
        rw [joinLines_cons [] (l :: ls) (by simp), ih]
        rfl
      · simp only [if_neg hc]
        cases ls with
        | nil => simpa [joinLines] using congrArg (c :: ·) ih
        | cons l2 ls2 =>
          rw [joinLines_cons (c :: l) (l2 :: ls2) (by simp),
              List.cons_append]
          rw [joinLines_cons l (l2 :: ls2) (by simp)] at ih
          rw [ih]

theorem joinLines_take_pre (ls : List Str) (k : Nat) :
    joinLines (ls.take k) <+: joinLines ls := by
  induction ls generalizing k with
  | nil => simp
  | cons l ls ih =>
    cases k with
    | zero => simp [joinLines]
    | succ k =>
      rw [List.take_succ_cons]
      cases ls with
      | nil => simp
      | cons l2 ls2 =>
        cases hk : (l2 :: ls2).take k with
        | nil =>
          rw [joinLines_cons l (l2 :: ls2) (by simp)]
          simp [joinLines]
        | cons a as =>
          rw [joinLines_cons l (a :: as) (by simp),
              joinLines_cons l (l2 :: ls2) (by simp),
              List.prefix_append_right_inj, List.prefix_cons_inj]
          have h2 := ih k
          rwa [hk] at h2

theorem joinLines_take_splitLines_pre (s : Str) (k : Nat) :
    joinLines ((splitLines s).take k) <+: s := by
  have h := joinLines_take_pre (splitLines s) k
  rwa [joinLines_splitLines] at h

theorem splitLines_head_pre (s : Str) : (splitLines s).headD [] <+: s := by
  have h := joinLines_take_splitLines_pre s 1
  cases hs : splitLines s with
  | nil => exact absurd hs (splitLines_ne_nil s)
  | cons l ls => simpa [hs, joinLines] using h

theorem takePre {α : Type} (n : Nat) (l : List α) : l.take n <+: l :=
  List.take_prefix n l

theorem dropSuf {α : Type} (n : Nat) (l : List α) : l.drop n <:+ l :=
  List.drop_suffix n l

theorem nilPre {α : Type} (l : List α) : [] <+: l := ⟨l, rfl⟩

theorem nilInf {α : Type} (l : List α) : [] <:+: l := (nilPre l).isInfix

theorem fenceRest_suf (t : Str) : fenceRest t <:+ t := by
  unfold fenceRest
  dsimp only
  have h1 : (t.drop 3).dropWhile isLowerAZ <:+ t :=
    (List.dropWhile_suffix isLowerAZ).trans (dropSuf 3 t)
  split
  · exact (dropSuf 1 _).trans h1
  · exact h1

theorem tryFenceAt_inf (t g : Str) (h : tryFenceAt t = some g) : g <:+: t := by
  unfold tryFenceAt at h
  split at h
  · split at h
    · have hg : (fenceRest t).take _ = g := Option.some.inj h
      exact hg ▸ ((takePre _ (fenceRest t)).isInfix.trans (fenceRest_suf t).isInfix)
    · exact absurd h (by simp)
  · exact absurd h (by simp)

theorem fencedGroup_inf (s g : Str) (h : fencedGroup s = some g) : g <:+: s := by
  induction s with
  | nil => simp [fencedGroup] at h
  | cons c t ih =>
    unfold fencedGroup at h
    cases hf : tryFenceAt (c :: t) with
    | some g2 =>
      rw [hf] at h
      cases Option.some.inj h
      exact tryFenceAt_inf _ _ hf
    | none =>
      rw [hf] at h
      exact (ih h).trans (List.infix_cons (List.infix_refl t))

theorem stripFence_inf (r : Str) : stripFence r <:+: r := by
  unfold stripFence
  cases hf : fencedGroup r with
  | some g => exact (trimSpace_inf g).trans (fencedGroup_inf r g hf)
  | none => exact List.infix_refl r

theorem stripTokenStep_pre (r token : Str) : stripTokenStep r token <+: r := by
  unfold stripTokenStep
  cases indexOfSub r token with
  | some idx => exact takePre idx r
  | none => exact List.prefix_refl r

theorem stripPhraseStep_inf (r p : Str) : stripPhraseStep r p <:+: r := by
  unfold stripPhraseStep
  split
  · exact (trimSpace_inf (r.drop p.length)).trans (dropSuf p.length r).isInfix
  · exact List.infix_refl r

theorem stripLinePre_inf (before r : Str) : stripLinePre before r <:+: r := by
  unfold stripLinePre
  dsimp only
  repeat' split
  all_goals
    first
      | exact List.infix_refl r
      | exact ((trimLeftC_suf _ [' ']).trans
          (dropSuf _ (trimSpace r))).isInfix.trans (trimSpace_inf r)

theorem truncateAtAfterOverlap_pre (r after : Str) :
    truncateAtAfterOverlap r after <+: r := by
  unfold truncateAtAfterOverlap
  dsimp only
  repeat' split
  all_goals
    first
      | exact List.prefix_refl r
      | exact (trimRightC_pre _ _).trans (takePre _ r)

theorem removeAfterDuplicates_pre (r after : Str) :
    removeAfterDuplicates r after <+: r := by
  unfold removeAfterDuplicates
  dsimp only
  split
  · exact joinLines_take_splitLines_pre r _
  · rw [joinLines_splitLines r]

theorem rafdLoop_pre (r after res : Str) (l : List Nat)
    (h : rafdLoop (splitLines r) (splitLines after) r l = some res) : res <+: r := by
  induction l with
  | nil => simp [rafdLoop] at h
  | cons i is ih =>
    unfold rafdLoop at h
    dsimp only at h
    split at h
    · split at h
      · cases Option.some.inj h
        exact (trimRightC_pre _ _).trans (joinLines_take_splitLines_pre r i)
      · exact ih h
    · exact ih h

theorem removeAfterFunctionDuplicates_pre (r after : Str) :
    removeAfterFunctionDuplicates r after <+: r := by
  unfold removeAfterFunctionDuplicates
  dsimp only
  split
  · exact List.prefix_refl r
  · split
    · exact List.prefix_refl r
    · split
      next res hres => exact rafdLoop_pre r after res _ hres
      next => exact List.prefix_refl r

theorem nonBlockTrunc_pre (before r : Str) : nonBlockTrunc before r <+: r := by
  unfold nonBlockTrunc
  dsimp only
  repeat' split
  all_goals
    first
      | exact List.prefix_refl r
      | exact splitLines_head_pre r

theorem cleanAfterSteps_pre (after x : Str) : cleanAfterSteps after x <+: x := by
  unfold cleanAfterSteps
  split
  · exact ((removeAfterFunctionDuplicates_pre _ after).trans
      (removeAfterDuplicates_pre _ after)).trans (truncateAtAfterOverlap_pre x after)
  · exact List.prefix_refl x

theorem cleanFinalTrim_inf (x : Str) : cleanFinalTrim x <:+: x := by
  unfold cleanFinalTrim
  exact (trimLeftC_suf _ [' ', '\t']).isInfix.trans
    ((trimRightC_pre _ [' ', '\t', '\n']).isInfix.trans (trimLeftC_suf _ ['\n']).isInfix)

theorem cleanCore_inf (r b a : Str) : cleanCore r b a <:+: r := by
  unfold cleanCore
  have h1 : stripFence r <:+: r := stripFence_inf r
  have h2 := (trimCut_inf (stripFence r) [Char.ofNat 96]).trans h1
  have h3 := (foldl_step_inf (fun x y => (stripTokenStep_pre x y).isInfix)
    ctrlTokens (trimCut (stripFence r) [Char.ofNat 96])).trans h2
  have h4 := (foldl_step_inf (fun x y => stripPhraseStep_inf x y) phrasesList _).trans h3
  have h5 := (stripLinePre_inf b _).trans h4
  have h6 := (cleanAfterSteps_pre a _).isInfix.trans h5
  exact (nonBlockTrunc_pre b _).isInfix.trans h6

theorem cleanCompletion_inf (r b a : Str) : cleanCompletion r b a <:+: r := by
  unfold cleanCompletion
  dsimp only
  split
  · exact nilInf r
  · split
    · exact nilInf r
    · exact (cleanFinalTrim_inf _).trans (cleanCore_inf r b a)

/-- Claim C6 counterexample: the candidate cleaner is not idempotent.  With
current line "foo" before the cursor and raw candidate "foofoo bar", the
first pass strips the echoed prefix once, yielding "foo bar"; a second pass
strips "foo" again, yielding "bar". -/
theorem c6_counterexample :
    cleanCompletion (cleanCompletion (str "foofoo bar") (str "foo") [])
        (str "foo") [] ≠
      cleanCompletion (str "foofoo bar") (str "foo") [] := by decide

theorem overlapLoop_le (h s : Str) (m : Nat) : overlapLoop h s m ≤ m := by
  induction m with
  | zero => simp [overlapLoop]
  | succ k ih =>
    unfold overlapLoop
    split
    · exact Nat.le_refl _
    · exact Nat.le_succ_of_le ih

theorem overlapLoop_matches (h s : Str) (m : Nat) :
    h.drop (h.length - overlapLoop h s m) = s.take (overlapLoop h s m) := by
  induction m with
  | zero => simp [overlapLoop]
  | succ k ih =>
    unfold overlapLoop
    split
    next heq => simpa using heq
    next => exact ih

theorem overlapLoop_greatest (h s : Str) (m i : Nat) (him : i ≤ m)
    (hmatch : h.drop (h.length - i) = s.take i) : i ≤ overlapLoop h s m := by
  induction m with
  | zero => simpa [overlapLoop] using him
  | succ k ih =>
    unfold overlapLoop
    split
    · exact him
    next hne =>
      rcases Nat.lt_or_ge i (k + 1) with hlt | hge
      · exact ih (Nat.le_of_lt_succ hlt)
      · exact absurd (Nat.le_antisymm him hge ▸ hmatch) hne

theorem findOverlapSuffix_spec (hint suffix : Str) :
    findOverlapSuffix hint suffix ≤ (trimRightC hint [' ', '\t']).length ∧
    findOverlapSuffix hint suffix ≤ suffix.length ∧
    (trimRightC hint [' ', '\t']).drop
        ((trimRightC hint [' ', '\t']).length - findOverlapSuffix hint suffix) =
      suffix.take (findOverlapSuffix hint suffix) ∧
    ∀ i, i ≤ (trimRightC hint [' ', '\t']).length → i ≤ suffix.length →
      (trimRightC hint [' ', '\t']).drop ((trimRightC hint [' ', '\t']).length - i) =
        suffix.take i →
      i ≤ findOverlapSuffix hint suffix := by
  unfold findOverlapSuffix
  dsimp only
  split
  next hs =>
    subst hs
    refine ⟨Nat.zero_le _, Nat.zero_le _, by simp, ?_⟩
    intro i _ hi _
    simpa using hi
  next hs =>
    set h := trimRightC hint [' ', '\t'] with hh
    refine ⟨(overlapLoop_le h suffix _).trans (Nat.min_le_left _ _),
            (overlapLoop_le h suffix _).trans (Nat.min_le_right _ _),
            overlapLoop_matches h suffix _, ?_⟩
    intro i hi1 hi2 hm
    exact overlapLoop_greatest h suffix _ i (Nat.le_min.mpr ⟨hi1, hi2⟩) hm

theorem splitLines_singleton (s l : Str) (h : splitLines s = [l]) : l = s := by
  have hj := joinLines_splitLines s
  rw [h] at hj
  exact hj

theorem endPos_eq_advancePos (pos : Position) (hint : Str) :
    (⟨pos.line + ((splitLines hint).length - 1),
      if pos.line + ((splitLines hint).length - 1) = pos.line then
        ((splitLines hint).getD ((splitLines hint).length - 1) []).length + pos.character
      else ((splitLines hint).getD ((splitLines hint).length - 1) []).length⟩ : Position)
    = advancePos pos hint := by
  unfold advancePos
  dsimp only
  rcases hlen : (splitLines hint).length with _ | k
  · exact absurd hlen (Nat.pos_iff_ne_zero.mp (splitLines_length_pos hint))
  cases k with
  | zero =>
    have hsing : splitLines hint = [hint] := by
      cases hs : splitLines hint with
      | nil => exact absurd hs (splitLines_ne_nil hint)
      | cons l ls =>
        have hls : ls = [] := by
          have h2 := hlen
          rw [hs] at h2
          simpa using h2
        subst hls
        have hl := splitLines_singleton hint l hs
        subst hl
        rfl
    simp [hsing, Nat.add_comm]
  | succ k =>
    have hne : pos.line + (k + 1) ≠ pos.line := by omega
    simp [hlen, hne]

theorem buildItem_detail (hint0 : Str) (content : ContentParts) (pos : Position)
    (idx : Nat) :
    (buildCompletionItem hint0 content pos idx).detail = processedHint hint0 content := rfl

theorem buildItem_insert_text (hint0 : Str) (content : ContentParts) (pos : Position)
    (idx : Nat) :
    (buildCompletionItem hint0 content pos idx).textEdit =
      ⟨⟨pos, pos⟩, processedHint hint0 content⟩ := rfl

theorem buildItem_edit_shape (hint0 : Str) (content : ContentParts) (pos : Position)
    (idx : Nat) :
    (buildCompletionItem hint0 content pos idx).additionalTextEdits =
      (if findOverlapSuffix (processedHint hint0 content) content.ContentImmediatelyAfter
          = 0 then []
       else
         [⟨⟨advancePos pos (processedHint hint0 content),
            ⟨(advancePos pos (processedHint hint0 content)).line,
             (advancePos pos (processedHint hint0 content)).character +
               findOverlapSuffix (processedHint hint0 content)
                 content.ContentImmediatelyAfter⟩⟩, []⟩]) := by
  unfold buildCompletionItem
  dsimp only
  rw [← endPos_eq_advancePos pos (processedHint hint0 content)]
  rcases Nat.eq_zero_or_pos
    (findOverlapSuffix (processedHint hint0 content) content.ContentImmediatelyAfter)
    with hz | hp
  · simp [hz]
  · simp [hp, Nat.pos_iff_ne_zero.mp hp]

theorem posLt_advancePos (pos : Position) (hint : Str) (h : hint ≠ []) :
    posLt pos (advancePos pos hint) := by
  unfold advancePos posLt
  dsimp only
  split
  next h1 =>
    right
    exact ⟨rfl, Nat.lt_add_of_pos_right (List.length_pos.mpr h)⟩
  next h1 =>
    left
    show pos.line < pos.line + ((splitLines hint).length - 1)
    have hpos := splitLines_length_pos hint
    omega

theorem findOverlapSuffix_nil (suffix : Str) : findOverlapSuffix [] suffix = 0 := by
  unfold findOverlapSuffix
  split
  · rfl
  · dsimp only
    have ht : trimRightC [] [' ', '\t'] = ([] : Str) := rfl
    rw [ht]
    simp [overlapLoop]

theorem findOverlapSuffix_pos_ne (hint suffix : Str)
    (h : 0 < findOverlapSuffix hint suffix) : hint ≠ [] := by
  intro he
  subst he
  rw [findOverlapSuffix_nil] at h
  exact absurd h (by simp)

/-- Claim C7: `findOverlapSuffix` returns the longest `n` such that the last
`n` characters of the trailing-whitespace-trimmed candidate are literally
the first `n` characters of the after-cursor text, and
`buildCompletionItem` renders exactly that overlap as a single empty-text
(delete) edit spanning `n` characters immediately after the end of the
inserted text. -/
theorem c7_overlap_and_edit :
    (∀ hint suffix : Str,
      (trimRightC hint [' ', '\t']).drop
          ((trimRightC hint [' ', '\t']).length - findOverlapSuffix hint suffix) =
        suffix.take (findOverlapSuffix hint suffix) ∧
      findOverlapSuffix hint suffix ≤ (trimRightC hint [' ', '\t']).length ∧
      findOverlapSuffix hint suffix ≤ suffix.length ∧
      ∀ i, i ≤ (trimRightC hint [' ', '\t']).length → i ≤ suffix.length →
        (trimRightC hint [' ', '\t']).drop ((trimRightC hint [' ', '\t']).length - i) =
          suffix.take i → i ≤ findOverlapSuffix hint suffix) ∧
    (∀ (hint0 : Str) (content : ContentParts) (pos : Position) (idx : Nat),
      (buildCompletionItem hint0 content pos idx).additionalTextEdits =
        if findOverlapSuffix (buildCompletionItem hint0 content pos idx).detail
            content.ContentImmediatelyAfter = 0 then []
        else
          [⟨⟨advancePos pos (buildCompletionItem hint0 content pos idx).textEdit.newText,
             ⟨(advancePos pos
                 (buildCompletionItem hint0 content pos idx).textEdit.newText).line,
              (advancePos pos
                  (buildCompletionItem hint0 content pos idx).textEdit.newText).character +
                findOverlapSuffix (buildCompletionItem hint0 content pos idx).detail
                  content.ContentImmediatelyAfter⟩⟩, []⟩]) := by
  constructor
  · intro hint suffix
    obtain ⟨h1, h2, h3, h4⟩ := findOverlapSuffix_spec hint suffix
    exact ⟨h3, h1, h2, h4⟩
  · intro hint0 content pos idx
    rw [buildItem_edit_shape, buildItem_detail, buildItem_insert_text]

/-- Witness for C7 at a concrete input: for candidate "foo(bar) " and
after-cursor text "bar)x" the overlap is 4 ("bar)"), and the maximality
direction applies to the shorter overlap 2. -/
theorem c7_overlap_and_edit_witness :
    findOverlapSuffix (str "foo(bar) ") (str "bar)x") = 4 ∧
    4 ≤ findOverlapSuffix (str "foo(bar) ") (str "bar)x") :=
  ⟨by decide,
   (c7_overlap_and_edit.1 (str "foo(bar) ") (str "bar)x")).2.2.2 4
     (by decide) (by decide) (by decide)⟩

/-- Claim C3: every auxiliary delete edit built by `buildCompletionItem` has
empty replacement text, starts strictly after the insertion point (in
post-insertion coordinates, exactly at the end of the inserted text), spans
`n` characters of the same line where `n` is the computed overlap with the
text immediately after the cursor, and `n` never exceeds that text's length
while the deleted characters equal its first `n` characters — so the edit
never overlaps the insertion point and only deletes text the user already
had after the cursor. -/
theorem c3_aux_delete_invariant (hint0 : Str) (content : ContentParts)
    (pos : Position) (idx : Nat) (e : TextEdit)
    (he : e ∈ (buildCompletionItem hint0 content pos idx).additionalTextEdits) :
    e.newText = [] ∧
    posLt pos e.range.startPos ∧
    e.range.startPos =
      advancePos pos (buildCompletionItem hint0 content pos idx).textEdit.newText ∧
    e.range.endPos.line = e.range.startPos.line ∧
    e.range.endPos.character = e.range.startPos.character +
      findOverlapSuffix (buildCompletionItem hint0 content pos idx).detail
        content.ContentImmediatelyAfter ∧
    findOverlapSuffix (buildCompletionItem hint0 content pos idx).detail
        content.ContentImmediatelyAfter ≤ content.ContentImmediatelyAfter.length ∧
    (trimRightC (buildCompletionItem hint0 content pos idx).detail [' ', '\t']).drop
        ((trimRightC (buildCompletionItem hint0 content pos idx).detail
            [' ', '\t']).length -
          findOverlapSuffix (buildCompletionItem hint0 content pos idx).detail
            content.ContentImmediatelyAfter) =
      content.ContentImmediatelyAfter.take
        (findOverlapSuffix (buildCompletionItem hint0 content pos idx).detail
          content.ContentImmediatelyAfter) := by
  rw [buildItem_edit_shape] at he
  rw [buildItem_detail, buildItem_insert_text]
  split at he
  · simp at he
  next hn =>
    have hmem : e = _ := List.eq_of_mem_singleton he
    subst hmem
    obtain ⟨h1, h2, h3, h4⟩ :=
      findOverlapSuffix_spec (processedHint hint0 content) content.ContentImmediatelyAfter
    refine ⟨rfl, ?_, rfl, rfl, rfl, h2, h3⟩
    exact posLt_advancePos pos (processedHint hint0 content)
      (findOverlapSuffix_pos_ne _ _ (Nat.pos_of_ne_zero hn))

/-- Witness for C3 at a concrete input: candidate "ab)" on current line "ab"
with ")x" immediately after the cursor produces the single delete edit from
(0,3) to (0,4), strictly after the insertion point (0,2). -/
theorem c3_aux_delete_invariant_witness :
    (⟨⟨⟨0, 3⟩, ⟨0, 4⟩⟩, []⟩ : TextEdit) ∈
      (buildCompletionItem (str "ab)") ⟨str "ab", [], str "b", str "ab", str ")x"⟩
        ⟨0, 2⟩ 0).additionalTextEdits ∧
    posLt ⟨0, 2⟩ (⟨⟨⟨0, 3⟩, ⟨0, 4⟩⟩, ([] : Str)⟩ : TextEdit).range.startPos :=
  ⟨by decide,
   (c3_aux_delete_invariant (str "ab)") ⟨str "ab", [], str "b", str "ab", str ")x"⟩
     ⟨0, 2⟩ 0 ⟨⟨⟨0, 3⟩, ⟨0, 4⟩⟩, []⟩ (by decide)).2.1⟩

/-- Claim C6 (amended): the cleaner is not idempotent — a second pass can
strip further, as the counterexample shows — but what does hold is that
re-cleaning only removes text: every `cleanCompletion` output is a
contiguous substring of its input, so the doubly-cleaned candidate is a
contiguous substring of the once-cleaned one and no content is ever added
or invented by the second pass. -/
theorem c6_cleaner_substring_amended (raw before after : Str) :
    cleanCompletion (cleanCompletion raw before after) before after <:+:
      cleanCompletion raw before after :=
  cleanCompletion_inf (cleanCompletion raw before after) before after

theorem radLoop_spec (respLines afterLines : List Str) (m : Nat) :
    radLoop respLines afterLines m = none ∨
    ∃ i, radLoop respLines afterLines m = some i ∧ 1 ≤ i ∧ i ≤ m ∧
      i + 1 ≤ respLines.length ∧ trailingDup respLines afterLines i = true := by
  induction m with
  | zero => exact Or.inl rfl
  | succ k ih =>
    unfold radLoop
    dsimp only
    split
    · rcases ih with h | ⟨i, hi, h1, h2, h3, h4⟩
      · exact Or.inl h
      · exact Or.inr ⟨i, hi, h1, Nat.le_succ_of_le h2, h3, h4⟩
    · split
      · split
        · rcases ih with h | ⟨i, hi, h1, h2, h3, h4⟩
          · exact Or.inl h
          · exact Or.inr ⟨i, hi, h1, Nat.le_succ_of_le h2, h3, h4⟩
        · next hdup hsafe =>
          exact Or.inr ⟨k + 1, rfl, by omega, Nat.le_refl _, by omega, hdup⟩
      · rcases ih with h | ⟨i, hi, h1, h2, h3, h4⟩
        · exact Or.inl h
        · exact Or.inr ⟨i, hi, h1, Nat.le_succ_of_le h2, h3, h4⟩

/-- Claim C10 counterexample: `removeAfterDuplicates` can return the empty
string for a non-empty response.  Response "\na\nb" (lines "", "a", "b")
against after-text "a\nb": the two trailing lines duplicate the after text
and are substantial, the safety check only requires one retained line, and
the retained first line is empty, so the join is the empty string. -/
theorem c10_counterexample :
    removeAfterDuplicates (str "\na\nb") (str "a\nb") = [] ∧
    str "\na\nb" ≠ ([] : Str) := by decide

/-- Claim C10 (amended): `removeAfterDuplicates` removes `k` trailing lines
for some `k ≤ min(3, lines − 1)`, only when those trailing lines match the
leading after lines with content beyond bare braces, and it always retains
at least the first line of the response — but that retained line may itself
be empty, so the returned string (the join of the retained lines) can be
the empty string even for a non-empty response. -/
theorem c10_remove_after_duplicates_amended (response after : Str) :
    ∃ k, removeAfterDuplicates response after =
        joinLines ((splitLines response).take ((splitLines response).length - k)) ∧
      k ≤ 3 ∧ k + 1 ≤ (splitLines response).length ∧
      (0 < k → trailingDup (splitLines response) (splitLines after) k = true) := by
  unfold removeAfterDuplicates
  dsimp only
  rcases radLoop_spec (splitLines response) (splitLines after)
      (min 3 (splitLines response).length) with h | ⟨i, hi, h1, h2, h3, h4⟩
  · rw [h]
    have hpos := splitLines_length_pos response
    exact ⟨0, by simp, by omega, by omega, by omega⟩
  · rw [hi]
    refine ⟨i, rfl, le_trans h2 (Nat.min_le_left _ _), h3, fun _ => h4⟩

/-- Witness for C10 at a concrete input. -/
theorem c10_remove_after_duplicates_amended_witness :
    ∃ k, removeAfterDuplicates (str "ab") (str "cd") =
        joinLines ((splitLines (str "ab")).take ((splitLines (str "ab")).length - k)) ∧
      k ≤ 3 ∧ k + 1 ≤ (splitLines (str "ab")).length ∧
      (0 < k → trailingDup (splitLines (str "ab")) (splitLines (str "cd")) k = true) :=
  c10_remove_after_duplicates_amended (str "ab") (str "cd")

theorem ollamaCompletion_ok (b a : Str) (rs : List (Option Str)) :
    ollamaCompletion b a rs =
      .ok (collectLoop [] (rs.map (attemptCompletion b a))) := by
  unfold ollamaCompletion
  dsimp only
  split
  next h => rw [h]
  next => rfl

theorem collectLoop_skip_none (acc : List Str) (xs ys : List (Option Str)) :
    collectLoop acc (xs ++ none :: ys) = collectLoop acc (xs ++ ys) := by
  induction xs generalizing acc with
  | nil => rfl
  | cons x xs ih =>
    cases x with
    | none => exact ih acc
    | some c =>
      simp only [List.cons_append, collectLoop]
      split
      · exact ih _
      · exact ih acc

theorem collectLoop_nodup (rs : List (Option Str)) (acc : List Str) (h : acc.Nodup) :
    (collectLoop acc rs).Nodup := by
  induction rs generalizing acc with
  | nil => exact h
  | cons r rs ih =>
    cases r with
    | none => exact ih acc h
    | some c =>
      simp only [collectLoop]
      split
      next hc =>
        refine ih _ ?_
        have hcn : c ∉ acc := hc.2
        simp [List.nodup_append, h, hcn]
      next => exact ih acc h

theorem collectLoop_all_none (rs : List (Option Str)) (acc : List Str)
    (h : ∀ r ∈ rs, r = none) : collectLoop acc rs = acc := by
  induction rs generalizing acc with
  | nil => rfl
  | cons r rs ih =>
    have hr : r = none := h r (by simp)
    subst hr
    exact ih acc (fun r2 hr2 => h r2 (by simp [hr2]))

/-- Claim C8: in the parallel multi-candidate backend, a failed attempt does
not affect the others' contributions (deleting a failed arrival leaves the
result unchanged), the returned list never contains a duplicate string, and
a round in which every attempt fails produces `ok []` — an empty list with a
nil error — rather than a failure. -/
theorem c8_parallel_collection :
    (∀ (b a : Str) (xs ys : List (Option Str)),
      ollamaCompletion b a (xs ++ none :: ys) = ollamaCompletion b a (xs ++ ys)) ∧
    (∀ (b a : Str) (rs : List (Option Str)) (l : List Str),
      ollamaCompletion b a rs = .ok l → l.Nodup) ∧
    (∀ (b a : Str) (rs : List (Option Str)),
      (∀ r ∈ rs, attemptCompletion b a r = none) →
        ollamaCompletion b a rs = .ok []) := by
  refine ⟨?_, ?_, ?_⟩
  · intro b a xs ys
    rw [ollamaCompletion_ok, ollamaCompletion_ok]
    have hm : (xs ++ none :: ys).map (attemptCompletion b a) =
        xs.map (attemptCompletion b a) ++ none :: ys.map (attemptCompletion b a) := by
      simp [attemptCompletion]
    rw [hm, List.map_append, collectLoop_skip_none]
  · intro b a rs l h
    rw [ollamaCompletion_ok] at h
    cases h
    exact collectLoop_nodup _ [] (by simp)
  · intro b a rs h
    rw [ollamaCompletion_ok]
    rw [collectLoop_all_none]
    intro r2 hr2
    rcases List.mem_map.mp hr2 with ⟨r0, hr0, hmap⟩
    rw [← hmap, h r0 hr0]

/-- Witness for C8 at concrete inputs: three arrivals where two attempts
return the identical raw string "abcd" and one fails yield the string once;
three failing attempts yield `ok []`. -/
theorem c8_parallel_collection_witness :
    ([str "abcd"] : List Str).Nodup ∧
    ollamaCompletion [] [] [none, none, none] = .ok [] :=
  ⟨c8_parallel_collection.2.1 [] []
     [some (str "abcd"), some (str "abcd"), none] [str "abcd"] (by rfl),
   c8_parallel_collection.2.2 [] [] [none, none, none] (by decide)⟩

theorem getD_take_succ {α : Type} (l : List α) (L : Nat) (d : α) :
    (l.take (L + 1)).getD L d = l.getD L d := by
  simp [List.getD_eq_getElem?_getD, List.getElem?_take_of_lt (Nat.lt_succ_self L)]

theorem take_succ_getD {α : Type} (l : List α) (L : Nat) (h : L < l.length) (d : α) :
    l.take (L + 1) = l.take L ++ [l.getD L d] := by
  rw [List.take_succ]
  congr 1
  rw [List.getElem?_eq_getElem h]
  simp [List.getD_eq_getElem?_getD, List.getElem?_eq_getElem h]

theorem set_append_last {α : Type} (s : List α) (c x : α) :
    (s ++ [c]).set s.length x = s ++ [x] := by
  rw [List.set_append_right _ _ (Nat.le_refl _)]
  simp

theorem lastChar_drop (s : Str) :
    (if h : s = [] then ([] : Str) else [s.getLast h]) = s.drop (s.length - 1) := by
  induction s with
  | nil => rfl
  | cons c t ih =>
    rw [dif_neg (by simp)]
    cases t with
    | nil => rfl
    | cons d t2 =>
      rw [dif_neg (by simp)] at ih
      have hlen : (c :: d :: t2).length - 1 = t2.length + 1 := by simp
      rw [hlen]
      have hdrop : List.drop (t2.length + 1) (c :: d :: t2) =
          List.drop t2.length (d :: t2) := rfl
      rw [hdrop]
      have hlen2 : (d :: t2).length - 1 = t2.length := by simp
      rw [hlen2] at ih
      rw [← ih]
      congr 1

theorem set_take_last {α : Type} (l : List α) (L : Nat) (h : L < l.length) (c x : α) :
    (l.take L ++ [c]).set L x = l.take L ++ [x] := by
  have hl : (l.take L).length = L := List.length_take_of_le (Nat.le_of_lt h)
  rw [List.set_append_right _ _ (le_of_eq hl), hl]
  simp

theorem getContent_natForm (text : Str) (line col : Nat) :
    getContent text ((line : Int)) ((col : Int)) =
      ⟨joinLines ((splitLines text).take (min line ((splitLines text).length - 1)) ++
          [((splitLines text).getD (min line ((splitLines text).length - 1)) []).take col]),
       if min line ((splitLines text).length - 1) + 1 < (splitLines text).length then
         joinLines ((splitLines text).drop (min line ((splitLines text).length - 1) + 1))
       else [],
       (joinLines ((splitLines text).take (min line ((splitLines text).length - 1)) ++
          [((splitLines text).getD (min line ((splitLines text).length - 1)) []).take col])).drop
         ((joinLines ((splitLines text).take (min line ((splitLines text).length - 1)) ++
            [((splitLines text).getD (min line ((splitLines text).length - 1)) []).take
              col])).length - 1),
       ((splitLines text).getD (min line ((splitLines text).length - 1)) []).take col,
       ((splitLines text).getD (min line ((splitLines text).length - 1)) []).drop col⟩ := by
  have hpos : 0 < (splitLines text).length := splitLines_length_pos text
  unfold getContent
  dsimp only
  have h1 : (if ((line : Int)) < 0 then (0 : Int) else (line : Int)) = (line : Int) :=
    if_neg (by omega)
  rw [h1]
  have hline2 : (if ((line : Int)) ≥ ((splitLines text).length : Int) then
      ((splitLines text).length : Int) - 1 else (line : Int)) =
      ((min line ((splitLines text).length - 1) : Nat) : Int) := by
    rcases Nat.lt_or_ge line (splitLines text).length with hlt | hge
    · rw [if_neg (show ¬(((line : Int)) ≥ ((splitLines text).length : Int)) by omega),
          Nat.min_eq_left (by omega)]
    · rw [if_pos (show ((line : Int)) ≥ ((splitLines text).length : Int) by omega),
          Nat.min_eq_right (by omega)]
      omega
  rw [hline2]
  set L := min line ((splitLines text).length - 1) with hLdef
  have hLn : L < (splitLines text).length :=
    Nat.lt_of_le_of_lt (Nat.min_le_right line _) (by omega)
  have htoNat : ((L : Int)).toNat = L := by omega
  rw [htoNat]
  have hcur : ((splitLines text).take (L + 1)).getD L [] = (splitLines text).getD L [] :=
    getD_take_succ _ L []
  rw [hcur]
  have hsplit : (splitLines text).take (L + 1) =
      (splitLines text).take L ++ [(splitLines text).getD L []] :=
    take_succ_getD _ L hLn []
  have hlenTakeL : ((splitLines text).take L).length = L :=
    List.length_take_of_le (Nat.le_of_lt hLn)
  have hbefore : (if 0 ≤ ((col : Int)) ∧
        ((col : Int)) < ((((splitLines text).getD L []).length : Nat) : Int) then
      ((splitLines text).take (L + 1)).set L
        (((splitLines text).getD L []).take ((col : Int)).toNat)
    else (splitLines text).take (L + 1)) =
      (splitLines text).take L ++ [((splitLines text).getD L []).take col] := by
    have hcolNat : ((col : Int)).toNat = col := by omega
    split
    next hc =>
      rw [hcolNat, hsplit]
      exact set_take_last _ L hLn _ _
    next hc =>
      have hcle : ((splitLines text).getD L []).length ≤ col := by omega
      rw [hsplit, List.take_of_length_le hcle]
  rw [hbefore]
  have hlenB : ((splitLines text).take L ++
      [((splitLines text).getD L []).take col]).length - 1 = L := by
    simp [hlenTakeL]
  rw [hlenB]
  have hLL : ((splitLines text).take L ++
      [((splitLines text).getD L []).take col]).getD L [] =
      ((splitLines text).getD L []).take col := by
    rw [List.getD_eq_getElem?_getD, List.getElem?_append_right (le_of_eq hlenTakeL),
        hlenTakeL]
    simp
  rw [hLL]
  congr 1
  all_goals
    first
    | rfl
    | exact lastChar_drop _
    | (split
       next h => rw [if_pos (by omega)]
       next h => rw [if_neg (by omega)])
    | (split
       next h => rw [show ((col : Int)).toNat = col by omega]
       next h =>
         have hc2 : ((splitLines text).getD L []).length ≤ col := by omega
         rw [List.drop_eq_nil_of_le hc2])

/-- Claim C9 counterexample: `GetContent` does not return the whitespace-
trimmed cursor line as `LastLine`; it returns the cursor line truncated at
the column.  For text "hello" with cursor at line 0, column 3, `LastLine`
is "hel" while the trimmed cursor line is "hello". -/
theorem c9_counterexample :
    (getContent (str "hello") 0 3).LastLine ≠ trimSpace (str "hello") ∧
    (getContent (str "hello") 0 3).LastLine = str "hel" := by decide

/-- Claim C9 (amended): for every text and every zero-based line and column,
including out-of-range values, with the cursor line index clamped to the
last line, `GetContent` returns: `ContentBefore` = the lines up to and
including the cursor line joined, the cursor line truncated at the column;
`ContentAfter` = the remaining lines joined (empty when the cursor line is
the last); `LastLine` = the cursor line truncated at the column — not the
whitespace-trimmed cursor line the claim stated; `LastCharacter` = the
final character of `ContentBefore` (empty when there is none); and
`ContentImmediatelyAfter` = the remainder of the cursor line after the
column.  The embedding is total, so there are no failure modes for these
inputs. -/
theorem c9_getContent_amended (text : Str) (line col : Nat) :
    (getContent text (line : Int) (col : Int)).ContentBefore =
      joinLines ((splitLines text).take (min line ((splitLines text).length - 1)) ++
        [((splitLines text).getD (min line ((splitLines text).length - 1)) []).take col]) ∧
    (getContent text (line : Int) (col : Int)).ContentAfter =
      joinLines ((splitLines text).drop (min line ((splitLines text).length - 1) + 1)) ∧
    (getContent text (line : Int) (col : Int)).LastLine =
      ((splitLines text).getD (min line ((splitLines text).length - 1)) []).take col ∧
    (getContent text (line : Int) (col : Int)).LastCharacter =
      (getContent text (line : Int) (col : Int)).ContentBefore.drop
        ((getContent text (line : Int) (col : Int)).ContentBefore.length - 1) ∧
    (getContent text (line : Int) (col : Int)).ContentImmediatelyAfter =
      ((splitLines text).getD (min line ((splitLines text).length - 1)) []).drop col := by
  rw [getContent_natForm]
  refine ⟨rfl, ?_, rfl, rfl, rfl⟩
  split
  next h => rfl
  next h =>
    show ([] : Str) =
      joinLines ((splitLines text).drop (min line ((splitLines text).length - 1) + 1))
    rw [List.drop_eq_nil_of_le (Nat.le_of_not_lt h)]
    rfl

theorem count_resp_append (rs : List Response) (r : Response) (m : Nat) :
    ((rs ++ [r]).filter (fun x => x.msgID = m)).length =
      (rs.filter (fun x => x.msgID = m)).length + (if r.msgID = m then 1 else 0) := by
  rw [List.filter_append]
  by_cases hm : r.msgID = m <;> simp [hm]

theorem count_inf_append (l : List Exec) (ex : Exec) (m : Nat) :
    ((l ++ [ex]).filter (fun x => x.msgID = m)).length =
      (l.filter (fun x => x.msgID = m)).length + (if ex.msgID = m then 1 else 0) := by
  rw [List.filter_append]
  by_cases hm : ex.msgID = m <;> simp [hm]

theorem count_inf_cons (l : List Exec) (ex : Exec) (m : Nat) :
    ((ex :: l).filter (fun x => x.msgID = m)).length =
      (l.filter (fun x => x.msgID = m)).length + (if ex.msgID = m then 1 else 0) := by
  by_cases hm : ex.msgID = m <;> simp [hm, List.filter_cons]

theorem sendEmpty_ledger (s : MState) (k m : Nat) :
    ledger (sendEmpty s k) m = ledger s m + (if k = m then 1 else 0) := by
  unfold ledger respCount pendCount infCount sendEmpty
  dsimp only
  rw [count_resp_append]
  have : (Response.empty k).msgID = k := rfl
  rw [this]
  omega

theorem fireStep_ledger (s : MState) (m : Nat) : ledger (fireStep s) m = ledger s m := by
  unfold fireStep
  cases hp : s.pending with
  | none => rfl
  | some sch =>
    unfold ledger respCount pendCount infCount
    dsimp only
    rw [hp, count_inf_append]
    dsimp only
    omega

theorem rotStep_ledger (s : MState) (m : Nat) : ledger (rotStep s) m = ledger s m := by
  unfold rotStep
  cases hin : s.inflight with
  | nil => rfl
  | cons ex rest =>
    unfold ledger respCount pendCount infCount
    dsimp only
    rw [hin, count_inf_append, count_inf_cons]

theorem finishExec_ledger (s : MState) (ex : Exec) (rest : List Exec) (r : Response)
    (hin : s.inflight = ex :: rest) (hr : r.msgID = ex.msgID) :
    ledger (finishExec s rest r) m = ledger s m := by
  unfold finishExec ledger respCount pendCount infCount
  dsimp only
  rw [hin, count_resp_append, count_inf_cons, hr]
  omega

theorem execHeadStep_ledger (s : MState) (env : ExecEnv) (m : Nat) :
    ledger (execHeadStep s env) m = ledger s m := by
  unfold execHeadStep
  cases hin : s.inflight with
  | nil => rfl
  | cons ex rest =>
    dsimp only
    have hadv : ∀ pc', ledger { s with inflight := { ex with pc := pc' } :: rest } m =
        ledger s m := by
      intro pc'
      unfold ledger respCount pendCount infCount
      dsimp only
      rw [hin, count_inf_cons, count_inf_cons]
    have hbc : ∀ (s2 : MState), s2 = { s with backendCalls := s.backendCalls + 1 } →
        ∀ (r : Response), r.msgID = ex.msgID → ledger (finishExec s2 rest r) m = ledger s m := by
      intro s2 hs2 r hr
      subst hs2
      have h2 : ({ s with backendCalls := s.backendCalls + 1 } : MState).inflight =
          ex :: rest := hin
      rw [finishExec_ledger _ ex rest r h2 hr]
      rfl
    repeat' split
    all_goals
      first
      | exact finishExec_ledger s ex rest _ hin rfl
      | exact hbc _ rfl _ rfl
      | exact hadv _

theorem triggerStep_ledger (s : MState) (e : TrigEnv) (m : Nat) :
    ledger (triggerStep s e) m = ledger s m + (if e.msgID = m then 1 else 0) := by
  unfold triggerStep
  dsimp only
  split
  · exact sendEmpty_ledger s e.msgID m
  · split
    · exact sendEmpty_ledger s e.msgID m
    · split
      · exact sendEmpty_ledger s e.msgID m
      · cases hcc : s.cancelCurrent with
        | none =>
          cases hpd : s.pending with
          | none =>
            dsimp only
            split
            · unfold ledger respCount pendCount infCount
              dsimp only
              rw [hpd, count_resp_append]
              simp only [Response.msgID]
              omega
            · unfold ledger respCount pendCount infCount
              dsimp only
              rw [hpd]
              simp only [Response.msgID]
              omega
          | some sch =>
            dsimp only
            split
            · unfold ledger respCount pendCount infCount
              dsimp only
              rw [hpd, count_resp_append, count_resp_append]
              simp only [Response.msgID]
              omega
            · unfold ledger respCount pendCount infCount
              dsimp only
              rw [hpd, count_resp_append]
              simp only [Response.msgID]
              omega
        | some rr =>
          cases hpd : s.pending with
          | none =>
            dsimp only
            split
            · unfold ledger respCount pendCount infCount
              dsimp only
              rw [hpd, count_resp_append]
              simp only [Response.msgID]
              omega
            · unfold ledger respCount pendCount infCount
              dsimp only
              rw [hpd]
              simp only [Response.msgID]
              omega
          | some sch =>
            dsimp only
            split
            · unfold ledger respCount pendCount infCount
              dsimp only
              rw [hpd, count_resp_append, count_resp_append]
              simp only [Response.msgID]
              omega
            · unfold ledger respCount pendCount infCount
              dsimp only
              rw [hpd, count_resp_append]
              simp only [Response.msgID]
              omega

theorem mstep_ledger (s : MState) (ev : Ev) (m : Nat) :
    ledger (mstep s ev) m = ledger s m + evTrig ev m := by
  cases ev with
  | trigger e => exact triggerStep_ledger s e m
  | fire => simpa [evTrig, mstep] using fireStep_ledger s m
  | exec env => simpa [evTrig, mstep] using execHeadStep_ledger s env m
  | rot => simpa [evTrig, mstep] using rotStep_ledger s m

theorem run_ledger (evs : List Ev) : ∀ (s : MState) (m : Nat),
    ledger (evs.foldl mstep s) m = ledger s m + trigCount evs m := by
  induction evs with
  | nil => intro s m; simp [trigCount]
  | cons ev evs ih =>
    intro s m
    rw [List.foldl_cons, ih (mstep s ev) m, mstep_ledger]
    have : trigCount (ev :: evs) m = evTrig ev m + trigCount evs m := by
      unfold trigCount evTrig
      cases ev with
      | trigger e =>
        by_cases hm : e.msgID = m <;> simp [hm, List.filter_cons]
        omega
      | fire => simp [List.filter_cons]
      | exec env => simp [List.filter_cons]
      | rot => simp [List.filter_cons]
    rw [this]
    omega

/-- Claim C1: every incoming trigger message is answered exactly once.  In
any linearized handler history, the number of responses already sent for a
message plus the responses still owed to it (its pending debounce timer or
in-flight execution) equals the number of triggers bearing that message id;
hence no message is ever answered twice, and once no timer or execution
remains outstanding every trigger has received exactly one response —
whether it was filtered, duplicate-suppressed, superseded, stale,
cancelled, failed, panicked, or succeeded. -/
theorem c1_exactly_one_response (evs : List Ev) (m : Nat) :
    respCount (runEvents evs) m + pendCount (runEvents evs) m +
      infCount (runEvents evs) m = trigCount evs m := by
  have h := run_ledger evs initState m
  have h0 : ledger initState m = 0 := rfl
  rw [h0] at h
  simpa [ledger, runEvents] using h

/-- Claim C2 counterexample: the claim "a request superseded while pending
never resolves non-empty" fails on the trace `trC2`, where trigger B
arrives while A's execution has already passed its identity and context
checks; A's backend call then completes successfully and A's message
receives a non-empty response even though B superseded it. -/
theorem c2_counterexample : ¬ ∀ evs : List Ev, claimC2Holds evs = true :=
  fun h => absurd (h trC2) (by decide)

/-- Claim C2 (amended): if a trigger reaches scheduling while request A is
still in its debounce window, A is resolved with an empty result at that
moment (the stopped timer's owed response), and an execution that observes
a newer request id at its initial identity check responds empty.  The
identity check runs only at the start of execution, so a request superseded
after its backend call has returned successfully is not re-checked and can
still send a non-empty response (see the counterexample). -/
theorem c2_supersession_amended :
    (∀ (s : MState) (e : TrigEnv) (sch : Sched), s.pending = some sch →
      reachesScheduling e = true →
      Response.empty sch.msgID ∈ (triggerStep s e).responses) ∧
    (∀ (s : MState) (env : ExecEnv) (ex : Exec) (rest : List Exec),
      s.inflight = ex :: rest → ex.pc = 0 → s.requestID ≠ ex.reqID →
      execHeadStep s env = finishExec s rest (Response.empty ex.msgID)) := by
  constructor
  · intro s e sch hpend hreach
    unfold reachesScheduling at hreach
    simp only [Bool.and_eq_true, Bool.not_eq_true] at hreach
    obtain ⟨⟨hp, hb⟩, hsk⟩ := hreach
    unfold triggerStep
    rw [if_neg (by simp [hp]), if_neg (by simp [hb])]
    dsimp only
    have hsk2 : shouldSkip (getContent e.text (e.line : Int) (e.column : Int)) = false := by
      simpa using hsk
    rw [if_neg (by simp [hsk2])]
    cases hcc : s.cancelCurrent with
    | none =>
      dsimp only
      rw [hpend]
      dsimp only
      split <;> simp
    | some rr =>
      dsimp only
      rw [hpend]
      dsimp only
      split <;> simp
  · intro s env ex rest hin hpc hreq
    unfold execHeadStep
    rw [hin]
    dsimp only
    by_cases hpan : env.panics
    · rw [if_pos hpan]
    · rw [if_neg hpan, hpc, if_pos (show (0 : Nat) = 0 from rfl), if_pos hreq]

/-- Witness for the amended C2 at concrete inputs: a pending request (message
5) is flushed empty when message 6 reaches scheduling, and an execution at
its identity check with a stale request id finishes with an empty
response. -/
theorem c2_supersession_amended_witness :
    Response.empty 5 ∈
      (triggerStep { initState with pending := some ⟨5, 1, 1, ⟨[], [], [], [], []⟩⟩ }
        ⟨6, true, true, str "ab", 1, 0, 2, 0⟩).responses ∧
    execHeadStep
        { initState with requestID := 2,
                         inflight := [⟨5, 1, 1, ⟨[], [], [], [], []⟩, 0⟩] }
        ⟨false, true, 1, none⟩ =
      finishExec
        { initState with requestID := 2,
                         inflight := [⟨5, 1, 1, ⟨[], [], [], [], []⟩, 0⟩] }
        [] (Response.empty 5) :=
  ⟨c2_supersession_amended.1 _ _ _ rfl (by decide),
   c2_supersession_amended.2 _ _ _ _ rfl rfl (by decide)⟩

/-- Claim C4: when a fired request's buffer re-validation observes a missing
document or a version newer than the one captured at trigger time,
`executeCompletion` finishes immediately with a single empty response and
the generation-backend call counter is unchanged — no backend call is
made. -/
theorem c4_stale_empty_no_backend (s : MState) (env : ExecEnv) (ex : Exec)
    (rest : List Exec) (hin : s.inflight = ex :: rest) (hpc : ex.pc = 1)
    (hstale : ¬env.bufFound = true ∨ ex.version < env.bufVersion) :
    execHeadStep s env = finishExec s rest (Response.empty ex.msgID) ∧
    (execHeadStep s env).backendCalls = s.backendCalls := by
  have hstep : execHeadStep s env = finishExec s rest (Response.empty ex.msgID) := by
    unfold execHeadStep
    rw [hin]
    dsimp only
    by_cases hpan : env.panics
    · rw [if_pos hpan]
    · rw [if_neg hpan, hpc, if_neg (show ¬((1 : Nat) = 0) by decide),
          if_pos (show (1 : Nat) = 1 from rfl), if_pos hstale]
  exact ⟨hstep, by rw [hstep]; rfl⟩

/-- Witness for C4 at a concrete input: a request captured at document
version 3 re-validates against version 4 and resolves empty with the
backend-call counter untouched. -/
theorem c4_stale_empty_no_backend_witness :
    execHeadStep { initState with inflight := [⟨1, 1, 3, ⟨[], [], [], [], []⟩, 1⟩] }
        ⟨false, true, 4, none⟩ =
      finishExec { initState with inflight := [⟨1, 1, 3, ⟨[], [], [], [], []⟩, 1⟩] } []
        (Response.empty 1) ∧
    (execHeadStep { initState with inflight := [⟨1, 1, 3, ⟨[], [], [], [], []⟩, 1⟩] }
        ⟨false, true, 4, none⟩).backendCalls =
      ({ initState with
          inflight := [⟨1, 1, 3, ⟨[], [], [], [], []⟩, 1⟩] } : MState).backendCalls :=
  c4_stale_empty_no_backend
    { initState with inflight := [⟨1, 1, 3, ⟨[], [], [], [], []⟩, 1⟩] }
    ⟨false, true, 4, none⟩ ⟨1, 1, 3, ⟨[], [], [], [], []⟩, 1⟩ [] rfl rfl
    (Or.inr (by decide))

/-- Claim C5: the skip filter rejects a trigger exactly when the character
before the cursor is ".", the trimmed current line starts with one of the
single-line comment markers "//" or "#", or the trimmed current line is
empty or shorter than two characters; and a trigger whose context the
filter rejects is answered immediately with a single empty result — the
handler returns before scheduling, so no timer, no state change and no
generation-backend call occur. -/
theorem c5_skip_filter :
    (∀ content : ContentParts,
      shouldSkip content = true ↔
        (content.LastCharacter = ['.'] ∨
         startsWith (trimSpace content.LastLine) (str "//") = true ∨
         startsWith (trimSpace content.LastLine) (str "#") = true ∨
         trimSpace content.LastLine = [] ∨
         (trimSpace content.LastLine).length < 2)) ∧
    (∀ (s : MState) (e : TrigEnv), e.parseOk = true → e.bufFound = true →
      shouldSkip (getContent e.text (e.line : Int) (e.column : Int)) = true →
      triggerStep s e = sendEmpty s e.msgID) := by
  constructor
  · intro content
    unfold shouldSkip
    dsimp only
    by_cases h1 : content.LastCharacter = ['.']
    · simp [h1]
    · rw [if_neg h1]
      by_cases h2 : (startsWith (trimSpace content.LastLine) (str "//") ||
          startsWith (trimSpace content.LastLine) (str "#")) = true
      · rw [if_pos h2]
        simp only [Bool.or_eq_true] at h2
        simp [h1]
        tauto
      · rw [if_neg h2]
        simp only [Bool.or_eq_true] at h2
        push_neg at h2
        obtain ⟨h2a, h2b⟩ := h2
        by_cases h3 : trimSpace content.LastLine = []
        · rw [if_pos h3]
          simp [h3]
        · rw [if_neg h3]
          by_cases h4 : (trimSpace content.LastLine).length < 2
          · rw [if_pos h4]
            simp [h4]
          · rw [if_neg h4]
            simp [h1, h2a, h2b, h3, h4]
  · intro s e hp hb hskip
    unfold triggerStep
    rw [if_neg (by simp [hp]), if_neg (by simp [hb])]
    dsimp only
    rw [if_pos hskip]

/-- Witness for C5 at a concrete input: the spec's scenario — current line
"x." with last character "." — is rejected, and the corresponding trigger
is answered immediately with an empty result. -/
theorem c5_skip_filter_witness :
    shouldSkip ⟨str "x.", [], str ".", str "x.", []⟩ = true ∧
    triggerStep initState ⟨7, true, true, str "x.", 1, 0, 2, 0⟩ =
      sendEmpty initState 7 :=
  ⟨(c5_skip_filter.1 ⟨str "x.", [], str ".", str "x.", []⟩).mpr (Or.inl (by decide)),
   c5_skip_filter.2 initState ⟨7, true, true, str "x.", 1, 0, 2, 0⟩ rfl rfl (by decide)⟩
